import Mathlib

/-
Verification of the school-calendar holiday pipeline (merge_and_normalize_breaks,
validate_and_filter_calendar_dates, infer_missing_years in src/main.py).

Shallow embedding conventions:
- Python datetime values are embedded as Gregorian (year, month, day) records.
  toRD gives the proleptic-Gregorian ordinal (Python date.toordinal), so
  date subtraction, comparison and weekday() are expressed through toRD.
  wkday matches Python weekday(): Monday = 0 .. Sunday = 6.
- Python date strings are embedded as a three-state field: absent (None or
  the empty string), malformed (non-empty but strptime fails), or a parsed
  date.  strptime is parse-or-raise; parse_date is parse-or-None.
- Python string .lower() on the ASCII labels is List.map Char.toLower over
  the character list; the substring test x in y is hasSub.
-/

def isLeap (y : Nat) : Bool := (y % 4 == 0 && y % 100 != 0) || y % 400 == 0

def monthLen (y m : Nat) : Nat :=
  match m with
  | 2 => if isLeap y then 29 else 28
  | 4 => 30
  | 6 => 30
  | 9 => 30
  | 11 => 30
  | _ => 31

def daysBeforeMonth (y m : Nat) : Nat :=
  (match m with
   | 1 => 0 | 2 => 31 | 3 => 59 | 4 => 90 | 5 => 120 | 6 => 151
   | 7 => 181 | 8 => 212 | 9 => 243 | 10 => 273 | 11 => 304 | _ => 334)
  + (if 3 ≤ m ∧ isLeap y then 1 else 0)

/-- Days in all years before year y (proleptic Gregorian, year 1 = first year),
matching Python date.toordinal: daysBeforeYear 1 = 0. -/
def daysBeforeYear (y : Nat) : Nat :=
  365 * (y - 1) + (y - 1) / 4 + (y - 1) / 400 - (y - 1) / 100

structure Date where
  year : Nat
  month : Nat
  day : Nat
deriving DecidableEq

/-- Python date.toordinal: ordinal 1 is 0001-01-01. -/
def toRD (d : Date) : Nat := daysBeforeYear d.year + daysBeforeMonth d.year d.month + d.day

/-- Python datetime.weekday(): Monday = 0.  0001-01-01 (ordinal 1) is a Monday. -/
def wkday (d : Date) : Nat := (toRD d + 6) % 7

def Date.Valid (d : Date) : Prop :=
  1 ≤ d.year ∧ 1 ≤ d.month ∧ d.month ≤ 12 ∧ 1 ≤ d.day ∧ d.day ≤ monthLen d.year d.month

instance (d : Date) : Decidable d.Valid := by unfold Date.Valid; infer_instance

/-- Successor day (timedelta(days=1) addition). -/
def succD (d : Date) : Date :=
  if d.day < monthLen d.year d.month then ⟨d.year, d.month, d.day + 1⟩
  else if d.month < 12 then ⟨d.year, d.month + 1, 1⟩
  else ⟨d.year + 1, 1, 1⟩

/-- Predecessor day (timedelta(days=1) subtraction). -/
def predD (d : Date) : Date :=
  if 1 < d.day then ⟨d.year, d.month, d.day - 1⟩
  else if 1 < d.month then ⟨d.year, d.month - 1, monthLen d.year (d.month - 1)⟩
  else ⟨d.year - 1, 12, 31⟩

/-- The first day of the month after the month of d. -/
def monthStep (d : Date) : Date :=
  if d.month < 12 then ⟨d.year, d.month + 1, 1⟩ else ⟨d.year + 1, 1, 1⟩

/-- Day addition by month jumps.  The fuel only bounds the recursion; each
jump consumes at least one day, so fuel n + 1 always suffices, giving a
shallow computation equal to n iterations of succD. -/
def addDF : Nat → Date → Nat → Date
  | 0, d, _ => d
  | f + 1, d, n =>
    if n = 0 then d
    else if d.day + n ≤ monthLen d.year d.month then ⟨d.year, d.month, d.day + n⟩
    else addDF f (monthStep d) (n - (monthLen d.year d.month - d.day) - 1)

/-- Python timedelta(days=n) addition. -/
def addD (d : Date) (n : Nat) : Date := addDF (n + 1) d n

def subD (d : Date) : Nat → Date
  | 0 => d
  | n + 1 => predD (subD d n)

/-- Adding a possibly negative number of days (timedelta with an Int). -/
def addInt (d : Date) (k : Int) : Date :=
  if 0 ≤ k then addD d k.toNat else subD d (-k).toNat

/-- Python (a - b).days for datetimes. -/
def diffD (a b : Date) : Int := (toRD a : Int) - (toRD b : Int)

/-- Python max(a, b) on datetimes: returns a on ties. -/
def dmax (a b : Date) : Date := if toRD a < toRD b then b else a

theorem monthLen_ge_28 (y m : Nat) : 28 ≤ monthLen y m := by
  unfold monthLen
  split <;> (try split) <;> omega

theorem monthLen_le_31 (y m : Nat) : monthLen y m ≤ 31 := by
  unfold monthLen
  split <;> (try split) <;> omega

theorem daysBeforeMonth_succ (y m : Nat) (h1 : 1 ≤ m) (h2 : m ≤ 11) :
    daysBeforeMonth y (m + 1) = daysBeforeMonth y m + monthLen y m := by
  unfold daysBeforeMonth monthLen
  interval_cases m <;> cases h : isLeap y <;> simp [h]

theorem daysBeforeYear_add_form (y : Nat) : daysBeforeYear y + (y - 1) / 100 =
    365 * (y - 1) + (y - 1) / 4 + (y - 1) / 400 := by
  unfold daysBeforeYear
  omega

set_option maxHeartbeats 1000000 in
theorem daysBeforeYear_succ (y : Nat) (h : 1 ≤ y) :
    daysBeforeYear (y + 1) = daysBeforeYear y + (if isLeap y then 366 else 365) := by
  obtain ⟨k, rfl⟩ : ∃ k, y = k + 1 := ⟨y - 1, by omega⟩
  have e4 := Nat.succ_div k 4
  have e100 := Nat.succ_div k 100
  have e400 := Nat.succ_div k 400
  have A := daysBeforeYear_add_form (k + 1 + 1)
  have B := daysBeforeYear_add_form (k + 1)
  simp only [Nat.add_sub_cancel] at A B
  cases hL : isLeap (k + 1)
  · rw [if_neg (by simp)]
    unfold isLeap at hL
    simp only [Bool.or_eq_false_iff, Bool.and_eq_false_iff, beq_eq_false_iff_ne,
      ne_eq, bne_eq_false_iff_eq] at hL
    rcases hL with ⟨h4 | h100, h400⟩
    · have hd4 : ¬ 4 ∣ (k + 1) := fun hd => h4 (Nat.mod_eq_zero_of_dvd hd)
      have hd100 : ¬ 100 ∣ (k + 1) := fun hd => hd4 (dvd_trans (by norm_num) hd)
      have hd400 : ¬ 400 ∣ (k + 1) := fun hd => hd4 (dvd_trans (by norm_num) hd)
      rw [if_neg hd4] at e4
      rw [if_neg hd100] at e100
      rw [if_neg hd400] at e400
      omega
    · have hd100 : 100 ∣ (k + 1) := Nat.dvd_of_mod_eq_zero h100
      have hd4 : 4 ∣ (k + 1) := dvd_trans (by norm_num) hd100
      have hd400 : ¬ 400 ∣ (k + 1) := fun hd => h400 (Nat.mod_eq_zero_of_dvd hd)
      rw [if_pos hd4] at e4
      rw [if_pos hd100] at e100
      rw [if_neg hd400] at e400
      omega
  · rw [if_pos rfl]
    unfold isLeap at hL
    simp only [Bool.or_eq_true, Bool.and_eq_true, beq_iff_eq, bne_iff_ne, ne_eq] at hL
    rcases hL with ⟨h4, h100⟩ | h400
    · have hd4 : 4 ∣ (k + 1) := Nat.dvd_of_mod_eq_zero h4
      have hd100 : ¬ 100 ∣ (k + 1) := fun hd => h100 (Nat.mod_eq_zero_of_dvd hd)
      have hd400 : ¬ 400 ∣ (k + 1) := fun hd => hd100 (dvd_trans (by norm_num) hd)
      rw [if_pos hd4] at e4
      rw [if_neg hd100] at e100
      rw [if_neg hd400] at e400
      omega
    · have hd400 : 400 ∣ (k + 1) := Nat.dvd_of_mod_eq_zero h400
      have hd100 : 100 ∣ (k + 1) := dvd_trans (by norm_num) hd400
      have hd4 : 4 ∣ (k + 1) := dvd_trans (by norm_num) hd400
      rw [if_pos hd4] at e4
      rw [if_pos hd100] at e100
      rw [if_pos hd400] at e400
      omega

theorem toRD_succD {d : Date} (h : d.Valid) : toRD (succD d) = toRD d + 1 := by
  obtain ⟨hy, hm1, hm2, hd1, hd2⟩ := h
  unfold succD
  split
  · show daysBeforeYear d.year + daysBeforeMonth d.year d.month + (d.day + 1) = toRD d + 1
    unfold toRD
    omega
  · split
    · rename_i hlt hm
      have hday : d.day = monthLen d.year d.month := by omega
      have hms := daysBeforeMonth_succ d.year d.month hm1 (by omega)
      show daysBeforeYear d.year + daysBeforeMonth d.year (d.month + 1) + 1 = toRD d + 1
      unfold toRD
      omega
    · rename_i hlt hm
      have hm12 : d.month = 12 := by omega
      rw [hm12] at hlt hd2
      have h31 : monthLen d.year 12 = 31 := rfl
      have hday : d.day = 31 := by omega
      have hys := daysBeforeYear_succ d.year hy
      have hdm1 : daysBeforeMonth (d.year + 1) 1 = 0 := by simp [daysBeforeMonth]
      have hdm12 : daysBeforeMonth d.year 12 = 334 + (if isLeap d.year then 1 else 0) := by
        simp [daysBeforeMonth]
      show daysBeforeYear (d.year + 1) + daysBeforeMonth (d.year + 1) 1 + 1 = toRD d + 1
      unfold toRD
      rw [hm12]
      cases hL : isLeap d.year <;> simp [hL] at hys hdm12 <;> omega

theorem valid_succD {d : Date} (h : d.Valid) : (succD d).Valid := by
  obtain ⟨hy, hm1, hm2, hd1, hd2⟩ := h
  unfold succD
  split
  · exact ⟨hy, hm1, hm2, by show 1 ≤ d.day + 1; omega,
      by show d.day + 1 ≤ monthLen d.year d.month; omega⟩
  · split
    · refine ⟨hy, by show 1 ≤ d.month + 1; omega, by show d.month + 1 ≤ 12; omega,
        le_refl 1, ?_⟩
      show 1 ≤ monthLen d.year (d.month + 1)
      exact Nat.le_trans (by omega) (monthLen_ge_28 _ _)
    · refine ⟨by show 1 ≤ d.year + 1; omega, le_refl 1, by norm_num, le_refl 1, ?_⟩
      show 1 ≤ monthLen (d.year + 1) 1
      exact Nat.le_trans (by omega) (monthLen_ge_28 _ _)

theorem monthStep_spec {d : Date} (h : d.Valid) :
    toRD (monthStep d) + d.day = toRD d + monthLen d.year d.month + 1 ∧ (monthStep d).Valid := by
  obtain ⟨hy, hm1, hm2, hd1, hd2⟩ := h
  unfold monthStep
  split
  · rename_i hm
    have hms := daysBeforeMonth_succ d.year d.month hm1 (by omega)
    constructor
    · show daysBeforeYear d.year + daysBeforeMonth d.year (d.month + 1) + 1 + d.day =
        toRD d + monthLen d.year d.month + 1
      unfold toRD
      omega
    · refine ⟨hy, by show 1 ≤ d.month + 1; omega, by show d.month + 1 ≤ 12; omega,
        le_refl 1, ?_⟩
      show 1 ≤ monthLen d.year (d.month + 1)
      exact Nat.le_trans (by omega) (monthLen_ge_28 _ _)
  · rename_i hm
    have hm12 : d.month = 12 := by omega
    have hys := daysBeforeYear_succ d.year hy
    have hdm1 : daysBeforeMonth (d.year + 1) 1 = 0 := by simp [daysBeforeMonth]
    have hdm12 : daysBeforeMonth d.year 12 = 334 + (if isLeap d.year then 1 else 0) := by
      simp [daysBeforeMonth]
    have h31 : monthLen d.year 12 = 31 := rfl
    constructor
    · show daysBeforeYear (d.year + 1) + daysBeforeMonth (d.year + 1) 1 + 1 + d.day =
        toRD d + monthLen d.year d.month + 1
      unfold toRD
      rw [hm12, h31]
      cases hL : isLeap d.year <;> simp [hL] at hys hdm12 <;> omega
    · refine ⟨by show 1 ≤ d.year + 1; omega, le_refl 1, by norm_num, le_refl 1, ?_⟩
      show 1 ≤ monthLen (d.year + 1) 1
      exact Nat.le_trans (by omega) (monthLen_ge_28 _ _)

theorem toRD_addDF : ∀ (f : Nat) (d : Date) (n : Nat), d.Valid → n < f →
    toRD (addDF f d n) = toRD d + n ∧ (addDF f d n).Valid := by
  intro f
  induction f with
  | zero => intro d n _ hn; omega
  | succ g ih =>
    intro d n hv hn
    unfold addDF
    split
    · rename_i h0
      subst h0
      exact ⟨rfl, hv⟩
    · split
      · rename_i h0 hin
        obtain ⟨hy, hm1, hm2, hd1, hd2⟩ := hv
        constructor
        · show daysBeforeYear d.year + daysBeforeMonth d.year d.month + (d.day + n) = toRD d + n
          unfold toRD
          omega
        · exact ⟨hy, hm1, hm2, by show 1 ≤ d.day + n; omega,
            by show d.day + n ≤ monthLen d.year d.month; exact hin⟩
      · rename_i h0 hbig
        have hms := monthStep_spec hv
        have hday := hv.2.2.2.2
        have hlt : n - (monthLen d.year d.month - d.day) - 1 < g := by omega
        have hrec := ih (monthStep d) _ hms.2 hlt
        refine ⟨?_, hrec.2⟩
        rw [hrec.1]
        have h2 := hms.1
        omega

theorem toRD_addD {d : Date} (h : d.Valid) (n : Nat) :
    toRD (addD d n) = toRD d + n ∧ (addD d n).Valid :=
  toRD_addDF (n + 1) d n h (by omega)

theorem wkday_addD {d : Date} (h : d.Valid) (n : Nat) :
    wkday (addD d n) = (wkday d + n) % 7 := by
  unfold wkday
  rw [(toRD_addD h n).1]
  omega

theorem addD_in_month {d : Date} (_h : d.Valid) (n : Nat)
    (hn : d.day + n ≤ monthLen d.year d.month) :
    addD d n = ⟨d.year, d.month, d.day + n⟩ := by
  unfold addD addDF
  by_cases h0 : n = 0
  · subst h0
    simp
  · rw [if_neg h0, if_pos hn]

theorem subD_in_month {d : Date} (_h : d.Valid) (n : Nat) (hn : n < d.day) :
    subD d n = ⟨d.year, d.month, d.day - n⟩ := by
  induction n with
  | zero => show d = ⟨d.year, d.month, d.day - 0⟩; rfl
  | succ k ih =>
    have hk : k < d.day := by omega
    show predD (subD d k) = _
    rw [ih hk]
    unfold predD
    rw [if_pos (show 1 < d.day - k by omega)]
    show (⟨d.year, d.month, d.day - k - 1⟩ : Date) = ⟨d.year, d.month, d.day - (k + 1)⟩
    rfl

theorem wkday_day_lt_7 (d : Date) : wkday d < 7 := Nat.mod_lt _ (by omega)

theorem toRD_mk (y m d : Nat) : toRD ⟨y, m, d⟩ = daysBeforeYear y + daysBeforeMonth y m + d := rfl

/-! String utilities mirroring the Python label handling. -/

/-- Python s.lower() for the ASCII labels, as a character list. -/
def lowerL (s : String) : List Char := s.toList.map Char.toLower

/-- Python substring test: needle in hay. -/
def hasSub (hay needle : List Char) : Bool := hay.tails.any fun t => needle.isPrefixOf t

/-! Raw date entries (the rawDates records of merge_and_normalize_breaks).

A Python date string is absent (None or empty: parse_date returns None,
strptime is not called), malformed (non-empty, strptime raises) or a date. -/

inductive DField where
  | absent : DField
  | malformed : DField
  | valid : Date → DField
deriving DecidableEq

/-- parse_date: None on absent or malformed input, the date otherwise. -/
def parseDF : DField → Option Date
  | .valid d => some d
  | _ => none

structure RawEntry where
  date : DField
  endDate : DField
  label : String
  notes : String
  category : String
  isStudentDayOff : Option Bool
deriving DecidableEq

/-- The entries appended to date_entries in merge_and_normalize_breaks. -/
structure DateEntry where
  start : Date
  endD : Date
  label : String
  category : String
  dayOff : Bool
deriving DecidableEq

def closureIndicators : List (List Char) :=
  ["students do not report".toList, "schools closed".toList, "student holiday".toList,
   "school holiday".toList, "day off".toList, "no school".toList, "shaded".toList,
   "gray".toList, "orange".toList]

def calendarMarkerPatterns : List (List Char) :=
  ["end of nine weeks".toList, "end of 1st nine weeks".toList, "end of 2nd nine weeks".toList,
   "end of 3rd nine weeks".toList, "end of 4th nine weeks".toList, "end of first nine weeks".toList,
   "end of second nine weeks".toList, "end of third nine weeks".toList, "end of fourth nine weeks".toList,
   "first day of school".toList, "last day of school".toList, "last day of semester".toList,
   "end of semester".toList, "report card".toList, "progress report".toList]

def dayOffIndicators : List (List Char) :=
  ["teacher work day".toList, "teacher workday".toList, "student holiday".toList,
   "student day off".toList, "professional development".toList, "planning day".toList,
   "teacher planning".toList, "staff development".toList, "students out".toList]

/-- Python str.strip on a character list. -/
def trimL (l : List Char) : List Char :=
  ((l.dropWhile Char.isWhitespace).reverse.dropWhile Char.isWhitespace).reverse

/-- The final is_day_off promotion chain (lines starting at
`if student holiday in combined_text` of merge_and_normalize_breaks). -/
def promoteDayOff (combined labelLower : List Char) (category : String)
    (flag : Option Bool) (dayOff1 : Bool) : Bool :=
  if hasSub combined "student holiday".toList || hasSub combined "student day off".toList then true
  else if hasSub combined "students do not report".toList || hasSub combined "student do not report".toList then true
  else if category == "teacher_day" || category == "teacher_planning" then
    (if flag == some true then true
     else if hasSub combined "student holiday".toList then true
     else if hasSub labelLower "workday".toList || hasSub labelLower "work day".toList then true
     else dayOff1)
  else dayOff1

/-- One iteration of the date_entries loop of merge_and_normalize_breaks:
none means the entry is skipped (continue or is_day_off false). -/
def resolveEntry (firstDay : Option Date) (e : RawEntry) : Option DateEntry :=
  match parseDF e.date with
  | none => none
  | some start =>
    let endD := (parseDF e.endDate).getD start
    let labelLower := lowerL e.label
    let notesLower := lowerL e.notes
    let combined := labelLower ++ (' ' :: notesLower)
    let dayOff0 : Bool := e.isStudentDayOff.getD true
    if (hasSub labelLower "columbus".toList || hasSub labelLower "indigenous".toList)
        && !(closureIndicators.any fun p => hasSub combined p) then none
    else if (calendarMarkerPatterns.any fun p => hasSub labelLower p)
        && !(dayOffIndicators.any fun p => hasSub labelLower p || hasSub notesLower p) then none
    else
      let dayOff1 : Bool := if e.category == "early_release" then false else dayOff0
      if hasSub labelLower "early release".toList then none
      else if (hasSub labelLower "digital learning".toList
            || hasSub labelLower "independent learning".toList
            || hasSub labelLower "virtual learning".toList)
          && !((hasSub combined "student".toList && hasSub combined "holiday".toList)
            || hasSub combined "student day off".toList
            || hasSub combined "school holiday".toList) then none
      else if hasSub labelLower "independent learning".toList && hasSub labelLower "pl day".toList then none
      else if trimL labelLower == "independent learning / pl day".toList
           || trimL labelLower == "independent learning/pl day".toList then none
      else if (match firstDay with
        | some f => decide (toRD start < toRD f)
             && (hasSub labelLower "pre-planning".toList || hasSub labelLower "preplanning".toList)
        | none => false) then none
      else if (match firstDay with
        | some f => decide (toRD start < toRD f) && hasSub labelLower "staff development".toList
             && !(hasSub combined "student holiday".toList)
        | none => false) then none
      else
        let dayOff2 := promoteDayOff combined labelLower e.category e.isStudentDayOff dayOff1
        if dayOff2 then some ⟨start, endD, e.label, e.category, true⟩ else none

/-- The first loop of merge_and_normalize_breaks: the last entry whose label
mentions first day and school sets first_day_of_school (possibly back to None). -/
def firstDayOfSchool (raws : List RawEntry) : Option Date :=
  raws.foldl
    (fun acc e =>
      if hasSub (lowerL e.label) "first day".toList && hasSub (lowerL e.label) "school".toList
      then parseDF e.date else acc)
    none

def resolveEntries (raws : List RawEntry) : List DateEntry :=
  raws.filterMap (resolveEntry (firstDayOfSchool raws))

/-- Stable insertion sort by a Nat key: inserts each element before the first
strictly larger key, so ties keep their original order.  Python list.sort is
stable, hence produces exactly this list for the same key. -/
def insertByKey {α : Type} (f : α → Nat) (x : α) : List α → List α
  | [] => [x]
  | y :: ys => if f y < f x then y :: insertByKey f x ys else x :: y :: ys

def sortByKey {α : Type} (f : α → Nat) : List α → List α
  | [] => []
  | x :: xs => insertByKey f x (sortByKey f xs)

theorem perm_insertByKey {α : Type} (f : α → Nat) (x : α) (l : List α) :
    (insertByKey f x l).Perm (x :: l) := by
  induction l with
  | nil => exact List.Perm.refl _
  | cons y ys ih =>
    unfold insertByKey
    split
    · exact ((ih.cons y).trans (List.Perm.swap x y ys))
    · exact List.Perm.refl _

theorem perm_sortByKey {α : Type} (f : α → Nat) (l : List α) :
    (sortByKey f l).Perm l := by
  induction l with
  | nil => exact List.Perm.refl _
  | cons x xs ih => exact (perm_insertByKey f x (sortByKey f xs)).trans (ih.cons x)

theorem mem_sortByKey {α : Type} (f : α → Nat) (a : α) (l : List α) :
    a ∈ sortByKey f l ↔ a ∈ l := (perm_sortByKey f l).mem_iff

theorem pairwise_insertByKey {α : Type} (f : α → Nat) (x : α) (l : List α)
    (h : l.Pairwise (fun a b => f a ≤ f b)) :
    (insertByKey f x l).Pairwise (fun a b => f a ≤ f b) := by
  induction l with
  | nil => exact List.pairwise_singleton _ x
  | cons y ys ih =>
    rw [List.pairwise_cons] at h
    unfold insertByKey
    split
    · rename_i hlt
      rw [List.pairwise_cons]
      constructor
      · intro b hb
        rcases List.mem_cons.mp (((perm_insertByKey f x ys).mem_iff).mp hb) with rfl | h2
        · omega
        · exact h.1 b h2
      · exact ih h.2
    · rename_i hge
      rw [List.pairwise_cons]
      constructor
      · intro b hb
        rcases List.mem_cons.mp hb with rfl | h2
        · omega
        · exact Nat.le_trans (by omega) (h.1 b h2)
      · rw [List.pairwise_cons]
        exact h

theorem pairwise_sortByKey {α : Type} (f : α → Nat) (l : List α) :
    (sortByKey f l).Pairwise (fun a b => f a ≤ f b) := by
  induction l with
  | nil => exact List.Pairwise.nil
  | cons x xs ih => exact pairwise_insertByKey f x _ ih

/-- date_entries.sort(key=lambda x: x[start]): stable sort by start date. -/
def sortEntries (l : List DateEntry) : List DateEntry :=
  sortByKey (fun e => toRD e.start) l

/-- A merged break run (the current dict of the merge loop). -/
structure Run where
  start : Date
  endD : Date
  labels : List String
  cats : List String
deriving DecidableEq

def initRun (e : DateEntry) : Run := ⟨e.start, e.endD, [e.label], [e.category]⟩

/-- The should_merge computation of the merge loop. -/
def shouldMerge (cur : Run) (e : DateEntry) : Bool :=
  let gap : Int := diffD e.start cur.endD
  let viaAdjacent : Bool := gap ≤ 1
  let viaWeekend : Bool := gap ≤ 3 &&
    ((wkday cur.endD == 4 && wkday e.start == 0)
     || (wkday cur.endD == 4 && wkday e.start == 1)
     || (wkday cur.endD == 5 && wkday e.start == 0)
     || (wkday cur.endD == 6 && wkday e.start == 0)
     || (wkday e.start == 0 && gap ≤ 3))
  let viaMonthEdge : Bool := cur.endD.month != e.start.month
    && 28 ≤ cur.endD.day && e.start.day ≤ 5 && gap ≤ 5
  viaAdjacent || viaWeekend || viaMonthEdge

def absorb (cur : Run) (e : DateEntry) : Run :=
  ⟨cur.start, dmax cur.endD e.endD, cur.labels ++ [e.label], cur.cats ++ [e.category]⟩

def mergeGo (cur : Run) : List DateEntry → List Run
  | [] => [cur]
  | e :: es => if shouldMerge cur e then mergeGo (absorb cur e) es else cur :: mergeGo (initRun e) es

def mergeRuns : List DateEntry → List Run
  | [] => []
  | e :: es => mergeGo (initRun e) es

/-- The Break Merger: resolve day-off entries, sort, and merge into runs. -/
def mergedBreaks (raws : List RawEntry) : List Run :=
  mergeRuns (sortEntries (resolveEntries raws))

/-! Naming stage of merge_and_normalize_breaks (get_break_name and the
holiday-building loop over merged runs). -/

/-- get_break_name: keyword match first, then month fallback for multi-day
breaks, then the October fallback, then the verbatim label. -/
def getBreakName (month : Nat) (label : String) (isMulti : Bool) : String :=
  let l := lowerL label
  if hasSub l "mlk".toList || hasSub l "martin luther".toList || hasSub l "king".toList then "MLK Day"
  else if hasSub l "president".toList then "Presidents Day"
  else if hasSub l "memorial".toList then "Memorial Day"
  else if hasSub l "labor".toList then "Labor Day"
  else if hasSub l "veteran".toList then "Veterans Day"
  else if hasSub l "easter".toList then "Easter"
  else if hasSub l "independence".toList || hasSub l "july 4".toList || hasSub l "4th of july".toList then "Independence Day"
  else if hasSub l "thanksgiving".toList || hasSub l "thank".toList then "Thanksgiving Break"
  else if hasSub l "christmas".toList then "Christmas Break"
  else if hasSub l "spring".toList && hasSub l "break".toList then "Spring Break"
  else if hasSub l "fall".toList && hasSub l "break".toList then "Fall Break"
  else if hasSub l "winter".toList && hasSub l "break".toList then
    (if month == 12 then "Christmas Break" else "Winter Break")
  else if isMulti && month == 12 then "Christmas Break"
  else if isMulti && month == 2 then "Winter Break"
  else if isMulti && month == 10 then "Fall Break"
  else if isMulti && (month == 3 || month == 4) then "Spring Break"
  else if isMulti && month == 11 then "Thanksgiving Break"
  else if month == 10 then "Fall Break"
  else if label == "" then "Student Holiday" else label

/-- Pick the primary label of a run: the first label containing break, else
the first label, else the empty string. -/
def primaryLabel (labels : List String) : String :=
  match labels.find? (fun l => l != "" && hasSub (lowerL l) "break".toList) with
  | some l => l
  | none => labels.headD ""

/-- A CanonicalHoliday record.  Python dicts gain the inferred and sourceYear
keys only in the inference stage; absent keys are modeled by the defaults
false and none. -/
structure Holiday where
  name : String
  startD : DField
  endD : DField
  isOmitted : Bool
  notes : String
  inferred : Bool
  sourceYear : Option Nat
deriving DecidableEq

/-- First-occurrence deduplication; stands in for the Python set() of labels,
whose iteration order is unspecified (no claim depends on the notes text). -/
def dedupFirst (l : List String) : List String :=
  l.foldl (fun acc x => if x ∈ acc then acc else acc ++ [x]) []

def mergedNotes (labels : List String) : String :=
  if 1 < labels.length then "Merged from: " ++ String.intercalate ", " (dedupFirst labels)
  else ""

/-- The holidays-building loop (primary label, naming, February duplicate). -/
def nameStage (runs : List Run) : List Holiday :=
  runs.flatMap fun m =>
    let pl := primaryLabel m.labels
    let durationDays := diffD m.endD m.start
    let isMulti : Bool := decide (2 ≤ durationDays)
    let nm := getBreakName m.start.month pl isMulti
    let base : Holiday := ⟨nm, .valid m.start, .valid m.endD, false, mergedNotes m.labels, false, none⟩
    if m.start.month == 2 && isMulti then
      if nm == "Winter Break" then
        [base, ⟨"Presidents Day", .valid m.start, .valid m.endD, false,
          "Also interpreted as Presidents Day Weekend (overlapping with Winter Break)", false, none⟩]
      else if nm == "Presidents Day" then
        [base, ⟨"Winter Break", .valid m.start, .valid m.endD, false,
          "Also interpreted as Winter Break (overlapping with Presidents Day)", false, none⟩]
      else [base]
    else [base]

/-! Validator (validate_and_filter_calendar_dates). -/

/-- The weekend-trimming loop: step the end date back one day while it lands
on Saturday or Sunday and stays strictly after the start.  Each iteration
moves the end exactly one ordinal down, so the ordinal gap is enough fuel:
when the fuel runs out the guard is false as well. -/
def trimWeekend (s : Date) : Nat → Date → Date
  | 0, e => e
  | f + 1, e => if 5 ≤ wkday e ∧ toRD s < toRD e then trimWeekend s f (predD e) else e

/-- validate_and_filter_calendar_dates over the holidays list: a record with
no startDate is dropped; a record whose startDate or endDate raises in
strptime is appended unchanged; Columbus or Indigenous entries without
shading evidence in notes are dropped; otherwise the end is weekend-trimmed. -/
def validateAndFilter (holidays : List Holiday) : List Holiday :=
  holidays.filterMap fun h =>
    match h.startD with
    | .absent => none
    | .malformed => some h
    | .valid s =>
      match h.endD with
      | .malformed => some h
      | ed =>
        let e := (parseDF ed).getD s
        if (hasSub (lowerL h.name) "columbus".toList || hasSub (lowerL h.name) "indigenous".toList)
            && !(hasSub (lowerL h.notes) "shaded".toList || hasSub (lowerL h.notes) "gray".toList
                 || hasSub (lowerL h.notes) "orange".toList) then none
        else
          let e2 := trimWeekend s (toRD e - toRD s) e
          some { h with endD := .valid e2 }

/-! November (Thanksgiving) consolidation of merge_and_normalize_breaks. -/

/-- Python min over a nonempty list of datetimes (first minimum). -/
def dminList (d : Date) (l : List Date) : Date :=
  l.foldl (fun acc x => if toRD x < toRD acc then x else acc) d

/-- Python max over a nonempty list of datetimes (first maximum). -/
def dmaxList (d : Date) (l : List Date) : Date :=
  l.foldl (fun acc x => if toRD acc < toRD x then x else acc) d

/-- The datetime range start..end inclusive (empty when end precedes start). -/
def dateRange (s e : Date) : List Date :=
  (List.range (toRD e + 1 - toRD s)).map (addD s)

/-- The actual Thanksgiving day: fourth Thursday of November of fall_year. -/
def thanksgivingDay (fy : Nat) : Date :=
  let novFirst : Date := ⟨fy, 11, 1⟩
  let daysUntilThursday := (((3 : Int) - (wkday novFirst : Int)).emod 7).toNat
  addD novFirst (daysUntilThursday + 21)

def isNovHol (fy : Nat) (h : Holiday) : Bool :=
  match h.startD with
  | .valid s => decide (s.month = 11 ∧ s.year = fy ∧ 22 ≤ s.day)
  | _ => false

def novNotes (hs : List Holiday) : String :=
  let names := dedupFirst (hs.map (fun h => h.name))
  if 1 < names.length then "Consolidated from: " ++ String.intercalate ", " names
  else ""

/-- The November consolidation block: merge the fall-year November holidays
starting on day 22 or later into one Thanksgiving Break, but only when at
least two are present, the merged span is at least 3 days and contains the
actual Thanksgiving; any strptime failure aborts the whole block, leaving
the list unchanged. -/
def novConsolidate (fy : Nat) (holidays : List Holiday) : List Holiday :=
  if holidays.any (fun h => h.startD == DField.malformed) then holidays
  else
    let novHols := holidays.filter (isNovHol fy)
    let otherHols := holidays.filter (fun h => !(isNovHol fy h))
    if 2 ≤ novHols.length then
      if novHols.any (fun h => h.endD == DField.malformed) then holidays
      else
        let allDates := novHols.flatMap fun h =>
          match h.startD with
          | .valid s => dateRange s ((parseDF h.endD).getD s)
          | _ => []
        match allDates with
        | [] => holidays
        | d :: rest =>
          let minD := dminList d rest
          let maxD0 := dmaxList d rest
          let maxD := trimWeekend minD (toRD maxD0 - toRD minD) maxD0
          let tg := thanksgivingDay fy
          let durationDays := diffD maxD minD + 1
          if 3 ≤ durationDays ∧ toRD minD ≤ toRD tg ∧ toRD tg ≤ toRD maxD then
            otherHols ++ [⟨"Thanksgiving Break", .valid minD, .valid maxD, false,
              novNotes novHols, false, none⟩]
          else holidays
    else holidays

/-! Multi-Year Inference Engine (infer_missing_years). -/

/-- normalize_name on a character list: lower, strip, remove straight and
curly apostrophes (codepoints 39 and 8217). -/
def normLC (l : List Char) : List Char :=
  (trimL (l.map Char.toLower)).filter fun c => !(c == Char.ofNat 39 || c == Char.ofNat 8217)

def normNameL (s : String) : List Char := normLC s.toList

/-- get_nth_weekday_of_month: the nth occurrence of a weekday in a month,
None when it overflows the month. -/
def getNthWeekdayOfMonth (y m w n : Nat) : Option Date :=
  let firstWeekday := wkday ⟨y, m, 1⟩
  let daysToTarget := (((w : Int) - (firstWeekday : Int)).emod 7).toNat
  let firstOccurrence := 1 + daysToTarget
  let targetDay := firstOccurrence + (n - 1) * 7
  if monthLen y m < targetDay then none else some ⟨y, m, targetDay⟩

/-- get_nth_full_week: which Nth full (Monday-to-Friday) week of its month a
date falls in (floor division as in Python). -/
def getNthFullWeek (d : Date) : Int :=
  let firstWeekday := wkday ⟨d.year, d.month, 1⟩
  let daysToFirstMonday : Nat := if firstWeekday ≠ 0 then (7 - firstWeekday) % 7 else 0
  let firstMonday := 1 + daysToFirstMonday
  let ffwm0 := if 1 < firstMonday then firstMonday else 1
  let ffwm := if monthLen d.year d.month < ffwm0 + 4 then ffwm0 + 7 else ffwm0
  let weekStart0 : Int := (d.day : Int) - (wkday d : Int)
  let weekStart := if weekStart0 < 1 then 1 else weekStart0
  let weeksFromFirst := (weekStart - (ffwm : Int)).fdiv 7
  if 0 ≤ weeksFromFirst then weeksFromFirst + 1 else 1

/-- get_last_weekday_of_month. -/
def getLastWeekdayOfMonth (y m w : Nat) : Date :=
  let lastDate : Date := ⟨y, m, monthLen y m⟩
  let daysBack := (((wkday lastDate : Int) - (w : Int)).emod 7).toNat
  subD lastDate daysBack

/-- get_nth_full_week_start: the Monday of the Nth full week of a month, with
the fallback clamping of the source. -/
def getNthFullWeekStart (y m : Nat) (nth : Int) : Date :=
  let firstWeekday := wkday ⟨y, m, 1⟩
  let ffwm0 : Nat := if firstWeekday = 0 then 1 else 1 + (7 - firstWeekday)
  let ffwm := if monthLen y m < ffwm0 + 4 then ffwm0 + 7 else ffwm0
  let tm0 : Int := (ffwm : Int) + (nth - 1) * 7
  let tm : Int := if (monthLen y m : Int) < tm0 then (ffwm : Int) + (max 0 (nth - 2)) * 7 else tm0
  if tm < 1 ∨ (monthLen y m : Int) < tm then ⟨y, m, ffwm⟩ else ⟨y, m, tm.toNat⟩

/-- infer_christmas_break: December start anchored to the source day-of-month,
weekday-adjusted, extended to at least New Year when the source ended in
January. -/
def inferChristmasBreak (ty : Nat) (src : Holiday) : Option (Date × Date) :=
  match parseDF src.startD, parseDF src.endD with
  | some s, some e =>
    let dur := diffD e s
    let st0 : Date := ⟨ty, 12, s.day⟩
    let st :=
      if wkday st0 ≠ wkday s then
        let st1 := addInt st0 ((wkday s : Int) - (wkday st0 : Int))
        if 25 < st1.day then subD st1 7 else st1
      else st0
    let en0 := addInt st dur
    let en :=
      if e.month = 1 then
        (if toRD en0 < toRD ⟨ty + 1, 1, 1⟩ then (⟨ty + 1, 1, 1⟩ : Date) else en0)
      else en0
    some (st, en)
  | _, _ => none

/-- infer_break_by_pattern: reproduce the source Nth-full-week slot, weekday
offset and duration in the target year. -/
def inferBreakByPattern (ty : Nat) (src : Holiday) : Option (Date × Date) :=
  match parseDF src.startD, parseDF src.endD with
  | some s, some e =>
    let dur := diffD e s
    let weekMonday := getNthFullWeekStart ty s.month (getNthFullWeek s)
    let istart := addD weekMonday (wkday s)
    some (istart, addInt istart dur)
  | _, _ => none

/-- get_federal_holiday_date (the end component of the source tuple is always
None and is dropped).  A thanksgiving name whose fourth Thursday overflows
falls through to the remaining tests, exactly as in the source. -/
def getFederalHolidayDate (nm : List Char) (y : Nat) : Option Date :=
  let name := normLC nm
  if hasSub name "labor".toList && hasSub name "day".toList then getNthWeekdayOfMonth y 9 0 1
  else if hasSub name "thanksgiving".toList && (getNthWeekdayOfMonth y 11 3 4).isSome then
    getNthWeekdayOfMonth y 11 3 4
  else if hasSub name "mlk".toList || hasSub name "martin luther king".toList then
    getNthWeekdayOfMonth y 1 0 3
  else if hasSub name "presidents".toList || hasSub name "president".toList then
    getNthWeekdayOfMonth y 2 0 3
  else if hasSub name "memorial".toList && hasSub name "day".toList then
    some (getLastWeekdayOfMonth y 5 0)
  else if hasSub name "independence".toList || hasSub name "july 4".toList
       || hasSub name "4th of july".toList then some ⟨y, 7, 4⟩
  else none

/-- The truncation block of the per-year loop: discard a candidate ending
before today, discard one starting after the window end (today + 731 days),
clamp an end past the window end. -/
def truncateCandidate (today istart iend : Date) : Option (Date × Date) :=
  let rangeEnd := addD today 731
  if toRD iend < toRD today then none
  else if toRD rangeEnd < toRD istart then none
  else if toRD rangeEnd < toRD iend then some (istart, rangeEnd)
  else some (istart, iend)

/-- The candidate start and end for one target year (the strategy dispatch of
the per-year loop; the dead federal_end branch of the source is omitted). -/
def candidateFor (nm : List Char) (src : Holiday) (ss : Date) (dur : Int) (ty : Nat) :
    Option (Date × Date) :=
  match getFederalHolidayDate nm ty with
  | some fs =>
    if hasSub nm "thanksgiving".toList then
      let istart := if wkday ss = 0 then subD fs 3
        else subD fs ((((3 : Int) - (wkday ss : Int)).emod 7).toNat)
      some (istart, addInt istart dur)
    else some (fs, addInt fs dur)
  | none =>
    if hasSub nm "christmas".toList || (hasSub nm "winter".toList && ss.month == 12) then
      inferChristmasBreak ty src
    else if hasSub nm "winter".toList && ss.month == 2 then inferBreakByPattern ty src
    else if hasSub nm "spring".toList then inferBreakByPattern ty src
    else if hasSub nm "fall".toList then inferBreakByPattern ty src
    else inferBreakByPattern ty src

def inferredNote (sy : Nat) : String := "Inferred from " ++ toString sy ++ " calendar"

/-- One target year of the inner loop: emit the truncated candidate and
register its (name, target year) key. -/
def emitYear (today : Date) (nm : List Char) (src : Holiday) (ss : Date) (sy : Nat) (dur : Int)
    (st : List (List Char × Nat) × List Holiday) (ty : Nat) :
    List (List Char × Nat) × List Holiday :=
  match candidateFor nm src ss dur ty with
  | none => st
  | some (istart, iend) =>
    match truncateCandidate today istart iend with
    | none => st
    | some (fs, fe) =>
      (st.1 ++ [(nm, ty)],
       st.2 ++ [⟨src.name, .valid fs, .valid fe, false, inferredNote sy, true, some sy⟩])

/-- The candidate target years for one holiday name: the window years other
than the source year whose (name, year) key is not yet registered. -/
def targetYears (today rangeEnd : Date) (nm : List Char) (sy : Nat)
    (keys : List (List Char × Nat)) : List Nat :=
  (List.range' today.year (rangeEnd.year + 1 - today.year)).filter
    fun y => decide (y ≠ sy ∧ (nm, y) ∉ keys)

/-- Processing of one (normalized name, first holiday) pair. -/
def processName (today rangeEnd : Date) (st : List (List Char × Nat) × List Holiday)
    (p : List Char × Holiday) : List (List Char × Nat) × List Holiday :=
  match parseDF p.2.startD, parseDF p.2.endD with
  | some ss, some se =>
    if p.2.isOmitted then st
    else
      let sy := ss.year
      let dur := diffD se ss
      (targetYears today rangeEnd p.1 sy st.1).foldl (emitYear today p.1 p.2 ss sy dur) st
  | _, _ => st

/-- unique_holidays: the first holiday of each normalized name, in order. -/
def uniqueByName (holidays : List Holiday) : List (List Char × Holiday) :=
  holidays.foldl
    (fun acc h =>
      let n := normNameL h.name
      if acc.any (fun q => q.1 == n) then acc else acc ++ [(n, h)])
    []

/-- holidays_by_name_year: the (normalized name, start year) keys of the
input (only membership is ever consulted, so the keys suffice). -/
def inputKeys (holidays : List Holiday) : List (List Char × Nat) :=
  holidays.filterMap fun h => (parseDF h.startD).map fun s => (normNameL h.name, s.year)

/-- The engine core: the final key set and the enhanced holiday list before
the closing sort. -/
def inferCore (today : Date) (holidays : List Holiday) :
    List (List Char × Nat) × List Holiday :=
  let keys0 := inputKeys holidays
  let enhanced0 := holidays.map fun h => { h with inferred := false }
  (uniqueByName holidays).foldl (processName today (addD today 731)) (keys0, enhanced0)

/-- Sort key of the closing sort by startDate string: for parsed dates the
string order is the ordinal order; an absent startDate sorts first (its key
is the empty string).  No claim exercises sorting of a malformed date. -/
def holKey (h : Holiday) : Nat :=
  match h.startD with
  | .valid d => toRD d + 1
  | _ => 0

/-- infer_missing_years, with the effective date supplied as the explicit
today parameter (get_effective_date resolves the admin override outside the
embedded core). -/
def inferMissingYears (today : Date) (holidays : List Holiday) : List Holiday :=
  if holidays.isEmpty then holidays
  else if holidays.all (fun h => (parseDF h.startD).isNone && (parseDF h.endD).isNone) then holidays
  else sortByKey holKey (inferCore today holidays).2

/-! Concrete inputs used by the claims. -/

def teacherWorkdayEntry : RawEntry :=
  ⟨.valid ⟨2026, 2, 13⟩, .absent, "Teacher Workday", "", "other", some true⟩

def presidentsDayEntry : RawEntry :=
  ⟨.valid ⟨2026, 2, 16⟩, .valid ⟨2026, 2, 17⟩, "Presidents Day Holiday", "", "other", some true⟩

set_option maxRecDepth 10000 in
/-- C1: on the two-entry input (2026-02-13 Teacher Workday; 2026-02-16 to
2026-02-17 Presidents Day Holiday) the merger produces exactly one break
spanning 2026-02-13 to 2026-02-17 (Friday bridging to Monday), and the
naming stage emits Winter Break over that range plus a duplicate Presidents
Day over the identical range. -/
theorem c1_feb_scenario :
    mergedBreaks [teacherWorkdayEntry, presidentsDayEntry] =
      [⟨⟨2026, 2, 13⟩, ⟨2026, 2, 17⟩, ["Teacher Workday", "Presidents Day Holiday"],
        ["other", "other"]⟩] ∧
    (nameStage (mergedBreaks [teacherWorkdayEntry, presidentsDayEntry])).map
        (fun h => (h.name, h.startD, h.endD)) =
      [("Winter Break", DField.valid ⟨2026, 2, 13⟩, DField.valid ⟨2026, 2, 17⟩),
       ("Presidents Day", DField.valid ⟨2026, 2, 13⟩, DField.valid ⟨2026, 2, 17⟩)] := by
  constructor
  · decide
  · decide

/-- C5: the truncation of an inferred candidate against the effective date
and the window end (731 days = the 24-month forward window): a candidate
ending strictly before the effective date is discarded; one starting after
the window end is discarded; one extending past the window end keeps its
start and is clamped to the window end; one straddling the effective date
is kept with its original start intact. -/
theorem c5_truncation :
    (∀ t s e, toRD e < toRD t → truncateCandidate t s e = none) ∧
    (∀ t s e, toRD (addD t 731) < toRD s → truncateCandidate t s e = none) ∧
    (∀ t s e, toRD t ≤ toRD e → toRD s ≤ toRD (addD t 731) → toRD (addD t 731) < toRD e →
      truncateCandidate t s e = some (s, addD t 731)) ∧
    (∀ t s e, t.Valid → toRD s ≤ toRD t → toRD t ≤ toRD e →
      ∃ e2, truncateCandidate t s e = some (s, e2)) := by
  refine ⟨?_, ?_, ?_, ?_⟩
  · intro t s e h
    unfold truncateCandidate
    rw [if_pos h]
  · intro t s e h
    unfold truncateCandidate
    split
    · rfl
    · rw [if_pos h]
  · intro t s e h1 h2 h3
    unfold truncateCandidate
    rw [if_neg (by omega), if_neg (by omega), if_pos h3]
  · intro t s e hv h1 h2
    have hre := (toRD_addD hv 731).1
    unfold truncateCandidate
    rw [if_neg (by omega), if_neg (by omega)]
    split
    · exact ⟨_, rfl⟩
    · exact ⟨_, rfl⟩

set_option maxRecDepth 10000 in
/-- Witness for c5_truncation: concrete instances of its four implications
(effective date 2026-06-01; candidates around the window end 2028-06-01). -/
theorem c5_truncation_witness :
    truncateCandidate ⟨2026, 6, 1⟩ ⟨2026, 1, 1⟩ ⟨2026, 5, 30⟩ = none ∧
    truncateCandidate ⟨2026, 6, 1⟩ ⟨2028, 6, 5⟩ ⟨2028, 6, 9⟩ = none ∧
    truncateCandidate ⟨2026, 6, 1⟩ ⟨2028, 5, 28⟩ ⟨2028, 6, 8⟩ = some (⟨2028, 5, 28⟩, addD ⟨2026, 6, 1⟩ 731) ∧
    ∃ e2, truncateCandidate ⟨2026, 6, 1⟩ ⟨2026, 5, 28⟩ ⟨2026, 6, 4⟩ = some (⟨2026, 5, 28⟩, e2) := by
  refine ⟨?_, ?_, ?_, ?_⟩
  · exact c5_truncation.1 _ _ _ (by decide)
  · exact c5_truncation.2.1 _ _ _ (by decide)
  · exact c5_truncation.2.2.1 _ _ _ (by decide) (by decide) (by decide)
  · exact c5_truncation.2.2.2 _ _ _ (by decide) (by decide) (by decide)

/-- C7: the November consolidation either leaves the holiday list unchanged
(merge not attempted or sanity check failed) or replaces the November
fall-year ranges by a single Thanksgiving Break whose merged span is at
least 3 days and contains the actual fourth-Thursday Thanksgiving date. -/
theorem c7_nov_consolidation_sanity (fy : Nat) (hs : List Holiday) :
    novConsolidate fy hs = hs ∨
    ∃ minD maxD,
      novConsolidate fy hs =
        hs.filter (fun h => !(isNovHol fy h)) ++
          [⟨"Thanksgiving Break", .valid minD, .valid maxD, false,
            novNotes (hs.filter (isNovHol fy)), false, none⟩] ∧
      3 ≤ diffD maxD minD + 1 ∧
      toRD minD ≤ toRD (thanksgivingDay fy) ∧ toRD (thanksgivingDay fy) ≤ toRD maxD := by
  simp only [novConsolidate]
  split
  · exact Or.inl rfl
  · split
    · split
      · exact Or.inl rfl
      · split
        · exact Or.inl rfl
        · rename_i d rest heq
          split
          · rename_i hcheck
            exact Or.inr ⟨_, _, rfl, hcheck.1, hcheck.2.1, hcheck.2.2⟩
          · exact Or.inl rfl
    · exact Or.inl rfl

/-! Claim C9: validator behavior on records with bad date strings. -/

def c9BadHoliday : Holiday := ⟨"Spring Break", .malformed, .absent, false, "", false, none⟩

def c9GoodHoliday : Holiday :=
  ⟨"Labor Day", .valid ⟨2025, 9, 1⟩, .valid ⟨2025, 9, 1⟩, false, "", false, none⟩

/-- C9 counterexample: a holiday whose startDate fails to parse is NOT
dropped by the validator; it is kept unchanged in the output (the claim
says it is skipped and dropped from the output). -/
theorem c9_counterexample :
    validateAndFilter [c9BadHoliday, c9GoodHoliday] = [c9BadHoliday, c9GoodHoliday] ∧
    c9BadHoliday ∈ validateAndFilter [c9BadHoliday, c9GoodHoliday] := by
  constructor
  · decide
  · decide

/-- C9 amended: a record with a missing (empty) startDate is dropped; a
record whose startDate, or endDate, is a non-empty string that fails to
parse is kept unchanged and skips validation; in every case the rest of the
batch is still processed, so a malformed date never aborts the batch. -/
theorem c9_amended :
    (∀ pre post h, h.startD = DField.absent →
      validateAndFilter (pre ++ h :: post) = validateAndFilter pre ++ validateAndFilter post) ∧
    (∀ pre post h, h.startD = DField.malformed →
      validateAndFilter (pre ++ h :: post) = validateAndFilter pre ++ h :: validateAndFilter post) ∧
    (∀ pre post (h : Holiday) s, h.startD = DField.valid s → h.endD = DField.malformed →
      validateAndFilter (pre ++ h :: post) = validateAndFilter pre ++ h :: validateAndFilter post) := by
  refine ⟨?_, ?_, ?_⟩
  · intro pre post h hs
    unfold validateAndFilter
    rw [List.filterMap_append, List.filterMap_cons]
    rw [hs]
  · intro pre post h hs
    unfold validateAndFilter
    rw [List.filterMap_append, List.filterMap_cons]
    rw [hs]
  · intro pre post h s hs he
    unfold validateAndFilter
    rw [List.filterMap_append, List.filterMap_cons]
    rw [hs, he]

/-- Witness for c9_amended at concrete records. -/
theorem c9_amended_witness :
    validateAndFilter [⟨"A", DField.absent, DField.absent, false, "", false, none⟩, c9GoodHoliday] =
      validateAndFilter [] ++ validateAndFilter [c9GoodHoliday] ∧
    validateAndFilter [c9BadHoliday] = validateAndFilter [] ++ c9BadHoliday :: validateAndFilter [] ∧
    validateAndFilter [⟨"B", DField.valid ⟨2025, 9, 1⟩, DField.malformed, false, "", false, none⟩] =
      validateAndFilter [] ++
        (⟨"B", DField.valid ⟨2025, 9, 1⟩, DField.malformed, false, "", false, none⟩ : Holiday) ::
          validateAndFilter [] := by
  refine ⟨?_, ?_, ?_⟩
  · exact c9_amended.1 [] [c9GoodHoliday] _ rfl
  · exact c9_amended.2.1 [] [] c9BadHoliday rfl
  · exact c9_amended.2.2 [] [] _ ⟨2025, 9, 1⟩ rfl rfl

/-! Claim C8: fallback naming of unmatched merged ranges. -/

def c8OctEntry : RawEntry :=
  ⟨.valid ⟨2026, 10, 12⟩, .absent, "Random Day", "", "other", some true⟩

set_option maxRecDepth 10000 in
/-- C8 counterexample: a one-day October range whose label matches no
taxonomy keyword is named Fall Break by the naming stage, not the verbatim
source label, refuting the claim for October ranges. -/
theorem c8_counterexample :
    (nameStage (mergedBreaks [c8OctEntry])).map (fun h => h.name) = ["Fall Break"] ∧
    getBreakName 10 "Random Day" false = "Fall Break" ∧
    "Fall Break" ≠ "Random Day" := by
  refine ⟨by decide, by decide, by decide⟩

/-- The taxonomy keyword layer of get_break_name as one predicate. -/
def matchesTaxonomy (l : List Char) : Bool :=
  hasSub l "mlk".toList || hasSub l "martin luther".toList || hasSub l "king".toList
    || hasSub l "president".toList || hasSub l "memorial".toList || hasSub l "labor".toList
    || hasSub l "veteran".toList || hasSub l "easter".toList || hasSub l "independence".toList
    || hasSub l "july 4".toList || hasSub l "4th of july".toList || hasSub l "thanksgiving".toList
    || hasSub l "thank".toList || hasSub l "christmas".toList
    || (hasSub l "spring".toList && hasSub l "break".toList)
    || (hasSub l "fall".toList && hasSub l "break".toList)
    || (hasSub l "winter".toList && hasSub l "break".toList)

/-- C8 amended: when the label matches no taxonomy keyword, the span is
under 2 days (is_multi_day false) and the range does not start in October,
the emitted name is the verbatim label, or Student Holiday when the label
is empty.  (An unmatched October range is always named Fall Break, whatever
its span: the October special case the claim omits.) -/
theorem c8_amended (month : Nat) (label : String)
    (hmatch : matchesTaxonomy (lowerL label) = false) (hm10 : month ≠ 10) :
    getBreakName month label false = label ∨
    (label = "" ∧ getBreakName month label false = "Student Holiday") := by
  unfold matchesTaxonomy at hmatch
  simp only [Bool.or_eq_false_iff, Bool.and_eq_false_iff] at hmatch
  obtain ⟨⟨⟨⟨⟨⟨⟨⟨⟨⟨⟨⟨⟨⟨⟨⟨h1, h2⟩, h3⟩, h4⟩, h5⟩, h6⟩, h7⟩, h8⟩, h9⟩, h10⟩, h11⟩,
    h12⟩, h13⟩, h14⟩, hsb⟩, hfb⟩, hwb⟩ := hmatch
  unfold getBreakName
  rw [if_neg (by simp only [h1, h2, h3, Bool.or_false, Bool.false_or]; exact Bool.false_ne_true),
    if_neg (by simp only [h4]; exact Bool.false_ne_true),
    if_neg (by simp only [h5]; exact Bool.false_ne_true),
    if_neg (by simp only [h6]; exact Bool.false_ne_true),
    if_neg (by simp only [h7]; exact Bool.false_ne_true),
    if_neg (by simp only [h8]; exact Bool.false_ne_true),
    if_neg (by simp only [h9, h10, h11, Bool.or_false, Bool.false_or]; exact Bool.false_ne_true),
    if_neg (by simp only [h12, h13, Bool.or_false, Bool.false_or]; exact Bool.false_ne_true),
    if_neg (by simp only [h14]; exact Bool.false_ne_true),
    if_neg (by rcases hsb with h | h <;>
      simp only [h, Bool.false_and, Bool.and_false] <;> exact Bool.false_ne_true),
    if_neg (by rcases hfb with h | h <;>
      simp only [h, Bool.false_and, Bool.and_false] <;> exact Bool.false_ne_true),
    if_neg (by rcases hwb with h | h <;>
      simp only [h, Bool.false_and, Bool.and_false] <;> exact Bool.false_ne_true),
    if_neg (by simp only [Bool.false_and]; exact Bool.false_ne_true),
    if_neg (by simp only [Bool.false_and]; exact Bool.false_ne_true),
    if_neg (by simp only [Bool.false_and]; exact Bool.false_ne_true),
    if_neg (by simp only [Bool.false_and]; exact Bool.false_ne_true),
    if_neg (by simp only [Bool.false_and]; exact Bool.false_ne_true),
    if_neg (by simp [hm10])]
  by_cases hl : label = ""
  · exact Or.inr ⟨hl, by rw [if_pos (by simp [hl])]⟩
  · exact Or.inl (by rw [if_neg (by simp [hl])])

/-- Witness for c8_amended: a plain label in March keeps its verbatim name. -/
theorem c8_amended_witness :
    getBreakName 3 "Random Day" false = "Random Day" ∨
    ("Random Day" = "" ∧ getBreakName 3 "Random Day" false = "Student Holiday") :=
  c8_amended 3 "Random Day" (by decide) (by decide)

/-! Claim C2: the startDate ≤ endDate invariant of merged breaks. -/

def c2BadEntry : RawEntry :=
  ⟨.valid ⟨2026, 2, 10⟩, .valid ⟨2026, 2, 5⟩, "Snow Day", "", "other", some true⟩

set_option maxRecDepth 10000 in
/-- C2 counterexample: a raw entry whose endDate parses to a date before its
start date yields a MergedBreak with startDate after endDate, refuting the
claim for arbitrary input sequences. -/
theorem c2_counterexample :
    ∃ b ∈ mergedBreaks [c2BadEntry], toRD b.endD < toRD b.start := by
  decide

/-! Structural lemmas about the entry resolution and the merge loop. -/

theorem parseDF_eq_some {f : DField} {d : Date} : parseDF f = some d ↔ f = .valid d := by
  cases f <;> simp [parseDF]

/-- A resolved entry keeps the parsed start, the parsed-or-start end, the
label and the category, and is always recorded as a day off. -/
theorem resolveEntry_shape {fd : Option Date} {e : RawEntry} {r : DateEntry}
    (h : resolveEntry fd e = some r) :
    r.dayOff = true ∧ parseDF e.date = some r.start ∧
    r.endD = (parseDF e.endDate).getD r.start ∧ r.label = e.label ∧ r.category = e.category := by
  unfold resolveEntry at h
  cases hd : parseDF e.date with
  | none => rw [hd] at h; cases h
  | some d1 =>
    rw [hd] at h
    simp only [] at h
    repeat' split at h
    all_goals first
    | exact Option.noConfusion h
    | (injection h with h2
       subst h2
       exact ⟨rfl, rfl, rfl, rfl, rfl⟩)

/-- The well-formedness condition on a raw entry: a parsed endDate is not
before the parsed start date. -/
def wfRaw (e : RawEntry) : Prop :=
  ∀ d1 d2, e.date = DField.valid d1 → e.endDate = DField.valid d2 → toRD d1 ≤ toRD d2

theorem resolveEntry_wf {fd : Option Date} {e : RawEntry} {r : DateEntry}
    (hwf : wfRaw e) (h : resolveEntry fd e = some r) : toRD r.start ≤ toRD r.endD := by
  obtain ⟨-, hstart, hend, -, -⟩ := resolveEntry_shape h
  rw [hend]
  cases hed : e.endDate with
  | valid d2 =>
    simp only [parseDF, Option.getD_some]
    exact hwf r.start d2 (parseDF_eq_some.mp hstart) hed
  | absent => simp [parseDF]
  | malformed => simp [parseDF]

theorem mergeGo_wf : ∀ (es : List DateEntry) (cur : Run),
    toRD cur.start ≤ toRD cur.endD → (∀ e ∈ es, toRD e.start ≤ toRD e.endD) →
    ∀ b ∈ mergeGo cur es, toRD b.start ≤ toRD b.endD := by
  intro es
  induction es with
  | nil =>
    intro cur hc _ b hb
    simp only [mergeGo, List.mem_singleton] at hb
    subst hb
    exact hc
  | cons e es ih =>
    intro cur hc hes b hb
    unfold mergeGo at hb
    split at hb
    · refine ih (absorb cur e) ?_ (fun x hx => hes x (List.mem_cons_of_mem _ hx)) b hb
      show toRD cur.start ≤ toRD (dmax cur.endD e.endD)
      unfold dmax
      split <;> omega
    · rcases List.mem_cons.mp hb with rfl | hb2
      · exact hc
      · exact ih (initRun e) (hes e (List.mem_cons_self _ _))
          (fun x hx => hes x (List.mem_cons_of_mem _ hx)) b hb2

/-- Every kept date entry is well-formed when the raw input is. -/
theorem resolveEntries_wf {raws : List RawEntry} (hwf : ∀ e ∈ raws, wfRaw e) :
    ∀ de ∈ resolveEntries raws, toRD de.start ≤ toRD de.endD := by
  intro de hde
  obtain ⟨e, he, heq⟩ := List.mem_filterMap.mp hde
  exact resolveEntry_wf (hwf e he) heq

/-- C2 amended: when every raw entry whose start and end dates both parse
has its end on or after its start, every MergedBreak satisfies
startDate ≤ endDate.  (For arbitrary input the invariant fails, see the
counterexample: an entry with endDate before date is passed through.) -/
theorem c2_amended (raws : List RawEntry) (hwf : ∀ e ∈ raws, wfRaw e) :
    ∀ b ∈ mergedBreaks raws, toRD b.start ≤ toRD b.endD := by
  intro b hb
  have hres := resolveEntries_wf hwf
  have hsorted : ∀ de ∈ sortEntries (resolveEntries raws), toRD de.start ≤ toRD de.endD :=
    fun de hde => hres de ((mem_sortByKey _ _ _).mp hde)
  unfold mergedBreaks at hb
  rcases hs : sortEntries (resolveEntries raws) with _ | ⟨e0, rest⟩
  · rw [hs] at hb
    cases hb
  · rw [hs] at hb
    unfold mergeRuns at hb
    refine mergeGo_wf rest (initRun e0) ?_ ?_ b hb
    · exact hsorted e0 (by rw [hs]; exact List.mem_cons_self _ _)
    · intro x hx
      exact hsorted x (by rw [hs]; exact List.mem_cons_of_mem _ hx)

def c2GoodEntry : RawEntry :=
  ⟨.valid ⟨2026, 3, 2⟩, .valid ⟨2026, 3, 6⟩, "Spring Break", "", "other", some true⟩

def c2GoodRun : Run := ⟨⟨2026, 3, 2⟩, ⟨2026, 3, 6⟩, ["Spring Break"], ["other"]⟩

set_option maxRecDepth 10000 in
/-- Witness for c2_amended at a concrete well-formed entry. -/
theorem c2_amended_witness :
    c2GoodRun ∈ mergedBreaks [c2GoodEntry] ∧ toRD c2GoodRun.start ≤ toRD c2GoodRun.endD := by
  have hwf : ∀ e ∈ [c2GoodEntry], wfRaw e := by
    intro e he d1 d2 h1 h2
    rw [List.mem_singleton] at he
    subst he
    simp only [c2GoodEntry] at h1 h2
    injection h1 with h1e
    injection h2 with h2e
    subst h1e
    subst h2e
    decide
  exact ⟨by decide, c2_amended [c2GoodEntry] hwf c2GoodRun (by decide)⟩

/-! Claim C10: the isStudentDayOff default. -/

theorem promoteDayOff_flag (c l : List Char) (cat : String) :
    promoteDayOff c l cat none (if cat == "early_release" then false else true) =
    promoteDayOff c l cat (some true) (if cat == "early_release" then false else true) := by
  unfold promoteDayOff
  by_cases h1 : (hasSub c "student holiday".toList || hasSub c "student day off".toList) = true
  · rw [if_pos h1, if_pos h1]
  · rw [if_neg h1, if_neg h1]
    by_cases h2 : (hasSub c "students do not report".toList
        || hasSub c "student do not report".toList) = true
    · rw [if_pos h2, if_pos h2]
    · rw [if_neg h2, if_neg h2]
      by_cases h3 : (cat == "teacher_day" || cat == "teacher_planning") = true
      · rw [if_pos h3, if_pos h3]
        rw [if_neg (by decide : ¬ ((none : Option Bool) == some true) = true)]
        rw [if_pos (by decide : ((some true : Option Bool) == some true) = true)]
        have hcat : (cat == "early_release") = false := by
          rcases Bool.or_eq_true_iff.mp h3 with hc | hc <;>
            rw [beq_iff_eq.mp hc] <;> decide
        rw [hcat]
        simp only [Bool.false_eq_true, if_false]
        split <;> simp
      · rw [if_neg h3, if_neg h3]

/-- An entry that omits isStudentDayOff resolves exactly like the same entry
with the flag set to true: the flag defaults to true. -/
theorem resolveEntry_flag_none {fd : Option Date} {e : RawEntry}
    (hflag : e.isStudentDayOff = none) :
    resolveEntry fd e = resolveEntry fd { e with isStudentDayOff := some true } := by
  unfold resolveEntry
  dsimp only
  rw [hflag]
  simp only [Option.getD_none, Option.getD_some]
  cases hd : parseDF e.date with
  | none => rfl
  | some d1 => rw [promoteDayOff_flag]

/-- Every start date fed to the merge loop ends up inside some produced run:
the loop only ever extends the current run or opens a new one at the entry. -/
theorem mergeGo_cover : ∀ (es : List DateEntry) (cur : Run) (d : Nat),
    (∀ x ∈ es, toRD x.start ≤ toRD x.endD) →
    es.Pairwise (fun a b => toRD a.start ≤ toRD b.start) →
    (∀ x ∈ es, toRD cur.start ≤ toRD x.start) →
    ((toRD cur.start ≤ d ∧ d ≤ toRD cur.endD) ∨ ∃ x ∈ es, d = toRD x.start) →
    ∃ b ∈ mergeGo cur es, toRD b.start ≤ d ∧ d ≤ toRD b.endD := by
  intro es
  induction es with
  | nil =>
    intro cur d _ _ _ hd
    rcases hd with ⟨h1, h2⟩ | ⟨x, hx, _⟩
    · exact ⟨cur, List.mem_singleton_self _, h1, h2⟩
    · cases hx
  | cons e es ih =>
    intro cur d hwf hsort hge hd
    rw [List.pairwise_cons] at hsort
    unfold mergeGo
    split
    · have hmax : toRD cur.endD ≤ toRD (dmax cur.endD e.endD) ∧
          toRD e.endD ≤ toRD (dmax cur.endD e.endD) := by
        unfold dmax; split <;> omega
      refine ih (absorb cur e) d (fun x hx => hwf x (List.mem_cons_of_mem _ hx)) hsort.2
        (fun x hx => hge x (List.mem_cons_of_mem _ hx)) ?_
      rcases hd with ⟨h1, h2⟩ | ⟨x, hx, hxd⟩
      · exact Or.inl ⟨h1, le_trans h2 hmax.1⟩
      · rcases List.mem_cons.mp hx with rfl | hx2
        · subst hxd
          exact Or.inl ⟨hge x (List.mem_cons_self _ _),
            le_trans (hwf x (List.mem_cons_self _ _)) hmax.2⟩
        · exact Or.inr ⟨x, hx2, hxd⟩
    · rcases hd with ⟨h1, h2⟩ | ⟨x, hx, hxd⟩
      · exact ⟨cur, List.mem_cons_self _ _, h1, h2⟩
      · rcases List.mem_cons.mp hx with rfl | hx2
        · subst hxd
          obtain ⟨b, hb, hb1, hb2⟩ := ih (initRun x) (toRD x.start)
            (fun y hy => hwf y (List.mem_cons_of_mem _ hy)) hsort.2
            (fun y hy => hsort.1 y hy)
            (Or.inl ⟨le_refl _, hwf x (List.mem_cons_self _ _)⟩)
          exact ⟨b, List.mem_cons_of_mem _ hb, hb1, hb2⟩
        · obtain ⟨b, hb, hb1, hb2⟩ := ih (initRun e) d
            (fun y hy => hwf y (List.mem_cons_of_mem _ hy)) hsort.2
            (fun y hy => hsort.1 y hy)
            (Or.inr ⟨x, hx2, hxd⟩)
          exact ⟨b, List.mem_cons_of_mem _ hb, hb1, hb2⟩

set_option maxHeartbeats 1000000 in
/-- C10: a raw entry with a parseable date that omits isStudentDayOff is
resolved exactly as if the flag were true (the default of
entry.get(isStudentDayOff, True)); when it survives the label-based drop
rules it is resolved as a day off, and its start date lies inside some
MergedBreak of the Break Merger output. -/
theorem c10_flag_default (raws : List RawEntry) (e : RawEntry) (r : DateEntry)
    (he : e ∈ raws) (hflag : e.isStudentDayOff = none)
    (hres : resolveEntry (firstDayOfSchool raws) e = some r)
    (hwf : ∀ x ∈ raws, wfRaw x) :
    resolveEntry (firstDayOfSchool raws) e
      = resolveEntry (firstDayOfSchool raws) { e with isStudentDayOff := some true } ∧
    r.dayOff = true ∧
    ∃ b ∈ mergedBreaks raws, toRD b.start ≤ toRD r.start ∧ toRD r.start ≤ toRD b.endD := by
  refine ⟨resolveEntry_flag_none hflag, (resolveEntry_shape hres).1, ?_⟩
  have hrmem : r ∈ resolveEntries raws := List.mem_filterMap.mpr ⟨e, he, hres⟩
  have hsmem : r ∈ sortEntries (resolveEntries raws) := (mem_sortByKey _ _ _).mpr hrmem
  have hwfs : ∀ x ∈ sortEntries (resolveEntries raws), toRD x.start ≤ toRD x.endD :=
    fun x hx => resolveEntries_wf hwf x ((mem_sortByKey _ _ _).mp hx)
  have hsort : (sortEntries (resolveEntries raws)).Pairwise
      (fun a b => toRD a.start ≤ toRD b.start) :=
    pairwise_sortByKey (fun x => toRD x.start) (resolveEntries raws)
  unfold mergedBreaks
  rcases hs : sortEntries (resolveEntries raws) with _ | ⟨e0, rest⟩
  · rw [hs] at hsmem
    cases hsmem
  · rw [hs] at hsmem hwfs hsort
    unfold mergeRuns
    rw [List.pairwise_cons] at hsort
    refine mergeGo_cover rest (initRun e0) (toRD r.start)
      (fun x hx => hwfs x (List.mem_cons_of_mem _ hx)) hsort.2
      (fun x hx => hsort.1 x hx) ?_
    rcases List.mem_cons.mp hsmem with rfl | h2
    · exact Or.inl ⟨le_refl _, hwfs r (List.mem_cons_self _ _)⟩
    · exact Or.inr ⟨r, h2, rfl⟩

def c10Entry : RawEntry :=
  ⟨.valid ⟨2026, 2, 13⟩, .absent, "Teacher Workday", "", "teacher_day", none⟩

def c10Res : DateEntry :=
  ⟨⟨2026, 2, 13⟩, ⟨2026, 2, 13⟩, "Teacher Workday", "teacher_day", true⟩

set_option maxRecDepth 10000 in
/-- Witness for c10_flag_default at a concrete flag-omitting teacher workday. -/
theorem c10_flag_default_witness :
    resolveEntry (firstDayOfSchool [c10Entry]) c10Entry
      = resolveEntry (firstDayOfSchool [c10Entry]) { c10Entry with isStudentDayOff := some true } ∧
    c10Res.dayOff = true ∧
    ∃ b ∈ mergedBreaks [c10Entry], toRD b.start ≤ toRD c10Res.start ∧ toRD c10Res.start ≤ toRD b.endD := by
  refine c10_flag_default [c10Entry] c10Entry c10Res (List.mem_singleton_self _) rfl (by decide) ?_
  intro x hx d1 d2 h1 h2
  rw [List.mem_singleton] at hx
  subst hx
  cases h2

/-! Claim C3: federal holiday rules. -/

theorem emod_sub_toNat (w f : Nat) (hw : w < 7) (hf : f < 7) :
    (((w : Int) - (f : Int)).emod 7).toNat = (w + 7 - f) % 7 := by
  rw [show ((w : Int) - (f : Int)).emod 7 = ((w : Int) - (f : Int)) % 7 from rfl]
  omega

/-- Any date returned by get_nth_weekday_of_month lies in the month, falls on
the requested weekday, and its day of month is in the nth weekday window. -/
theorem getNthWeekdayOfMonth_spec {y m w n : Nat} {d : Date} (hw : w < 7) (hn : 1 ≤ n)
    (h : getNthWeekdayOfMonth y m w n = some d) :
    d.year = y ∧ d.month = m ∧ wkday d = w ∧
    7 * n - 6 ≤ d.day ∧ d.day ≤ 7 * n ∧ d.day ≤ monthLen y m := by
  have hk := wkday_day_lt_7 ⟨y, m, 1⟩
  have hE := emod_sub_toNat w (wkday ⟨y, m, 1⟩) hw hk
  simp only [getNthWeekdayOfMonth] at h
  rw [hE] at h
  split at h
  · exact Option.noConfusion h
  · rename_i hle
    injection h with h2
    subst h2
    refine ⟨rfl, rfl, ?_, ?_, ?_, ?_⟩
    · show (toRD ⟨y, m, 1 + (w + 7 - wkday ⟨y, m, 1⟩) % 7 + (n - 1) * 7⟩ + 6) % 7 = w
      rw [toRD_mk]
      have hfd : wkday ⟨y, m, 1⟩
          = (daysBeforeYear y + daysBeforeMonth y m + 1 + 6) % 7 := rfl
      omega
    · show 7 * n - 6 ≤ 1 + (w + 7 - wkday ⟨y, m, 1⟩) % 7 + (n - 1) * 7
      omega
    · show 1 + (w + 7 - wkday ⟨y, m, 1⟩) % 7 + (n - 1) * 7 ≤ 7 * n
      omega
    · show 1 + (w + 7 - wkday ⟨y, m, 1⟩) % 7 + (n - 1) * 7 ≤ monthLen y m
      omega

/-- get_nth_weekday_of_month succeeds whenever the nth weekday window fits in
the month. -/
theorem getNthWeekdayOfMonth_isSome (y m w n : Nat) (hw : w < 7)
    (h7 : 7 + (n - 1) * 7 ≤ monthLen y m) :
    ∃ d, getNthWeekdayOfMonth y m w n = some d := by
  have hk := wkday_day_lt_7 ⟨y, m, 1⟩
  have hE := emod_sub_toNat w (wkday ⟨y, m, 1⟩) hw hk
  refine ⟨⟨y, m, 1 + (w + 7 - wkday ⟨y, m, 1⟩) % 7 + (n - 1) * 7⟩, ?_⟩
  simp only [getNthWeekdayOfMonth]
  rw [hE]
  rw [if_neg (by omega)]

/-- get_last_weekday_of_month for Monday: the result is the last Monday of
the month (a Monday in the last seven days of the month). -/
theorem getLastWeekdayOfMonth_monday (y m : Nat) (hy : 1 ≤ y) (hm1 : 1 ≤ m) (hm2 : m ≤ 12) :
    (getLastWeekdayOfMonth y m 0).year = y ∧ (getLastWeekdayOfMonth y m 0).month = m ∧
    wkday (getLastWeekdayOfMonth y m 0) = 0 ∧
    monthLen y m - 6 ≤ (getLastWeekdayOfMonth y m 0).day ∧
    (getLastWeekdayOfMonth y m 0).day ≤ monthLen y m := by
  have hk := wkday_day_lt_7 ⟨y, m, monthLen y m⟩
  have h28 := monthLen_ge_28 y m
  have hvalid : Date.Valid ⟨y, m, monthLen y m⟩ :=
    ⟨hy, hm1, hm2, by show 1 ≤ monthLen y m; omega, Nat.le_refl _⟩
  have key : getLastWeekdayOfMonth y m 0
      = ⟨y, m, monthLen y m - wkday ⟨y, m, monthLen y m⟩⟩ := by
    show subD ⟨y, m, monthLen y m⟩
        ((((wkday ⟨y, m, monthLen y m⟩ : Int) - ((0 : Nat) : Int)).emod 7).toNat)
      = ⟨y, m, monthLen y m - wkday ⟨y, m, monthLen y m⟩⟩
    rw [show ((((wkday ⟨y, m, monthLen y m⟩ : Int) - ((0 : Nat) : Int)).emod 7).toNat)
        = wkday ⟨y, m, monthLen y m⟩ from by
      rw [show ((wkday ⟨y, m, monthLen y m⟩ : Int) - ((0 : Nat) : Int)).emod 7
          = ((wkday ⟨y, m, monthLen y m⟩ : Int) - ((0 : Nat) : Int)) % 7 from rfl]
      omega]
    exact subD_in_month hvalid _ (by show wkday ⟨y, m, monthLen y m⟩ < monthLen y m; omega)
  refine ⟨by rw [key], by rw [key], ?_, ?_, ?_⟩
  · rw [key]
    show (toRD ⟨y, m, monthLen y m - wkday ⟨y, m, monthLen y m⟩⟩ + 6) % 7 = 0
    rw [toRD_mk]
    have hfd : wkday ⟨y, m, monthLen y m⟩
        = (daysBeforeYear y + daysBeforeMonth y m + monthLen y m + 6) % 7 := rfl
    omega
  · rw [key]
    show monthLen y m - 6 ≤ monthLen y m - wkday ⟨y, m, monthLen y m⟩
    omega
  · rw [key]
    show monthLen y m - wkday ⟨y, m, monthLen y m⟩ ≤ monthLen y m
    omega

def mlkSrc : Holiday :=
  ⟨"MLK Day", .valid ⟨2026, 1, 19⟩, .valid ⟨2026, 1, 19⟩, false, "", false, none⟩

def mlkInferred2027 : Holiday :=
  ⟨"MLK Day", .valid ⟨2027, 1, 18⟩, .valid ⟨2027, 1, 18⟩, false,
   "Inferred from 2026 calendar", true, some 2026⟩

set_option maxRecDepth 10000 in
/-- C3: get_federal_holiday_date follows the official rules for every year:
Labor Day is the 1st Monday of September, MLK Day the 3rd Monday of January
(and the per-year candidate starts exactly there), Presidents Day the 3rd
Monday of February, Memorial Day the last Monday of May, Independence Day
July 4; and a source MLK Day of 2026-01-19 infers 2027-01-18 end to end. -/
theorem c3_federal_rules (y : Nat) (hy : 1 ≤ y) :
    (∃ d, getFederalHolidayDate (normNameL "Labor Day") y = some d ∧
      d.year = y ∧ d.month = 9 ∧ wkday d = 0 ∧ 1 ≤ d.day ∧ d.day ≤ 7) ∧
    (∃ d, getFederalHolidayDate (normNameL "MLK Day") y = some d ∧
      d.year = y ∧ d.month = 1 ∧ wkday d = 0 ∧ 15 ≤ d.day ∧ d.day ≤ 21 ∧
      ∀ (src : Holiday) (ss : Date) (dur : Int),
        candidateFor (normNameL "MLK Day") src ss dur y = some (d, addInt d dur)) ∧
    (∃ d, getFederalHolidayDate (normNameL "Presidents Day") y = some d ∧
      d.year = y ∧ d.month = 2 ∧ wkday d = 0 ∧ 15 ≤ d.day ∧ d.day ≤ 21) ∧
    (∃ d, getFederalHolidayDate (normNameL "Memorial Day") y = some d ∧
      d.year = y ∧ d.month = 5 ∧ wkday d = 0 ∧ 25 ≤ d.day ∧ d.day ≤ 31) ∧
    getFederalHolidayDate (normNameL "Independence Day") y = some ⟨y, 7, 4⟩ ∧
    mlkInferred2027 ∈ inferMissingYears ⟨2026, 6, 1⟩ [mlkSrc] := by
  refine ⟨?_, ?_, ?_, ?_, rfl, by decide⟩
  · obtain ⟨d, hd⟩ := getNthWeekdayOfMonth_isSome y 9 0 1 (by decide)
      (show (7 : Nat) + (1 - 1) * 7 ≤ 30 by decide)
    obtain ⟨hy', hm', hw', h1, h2, h3⟩ := getNthWeekdayOfMonth_spec (by decide) (by decide) hd
    exact ⟨d, by rw [show getFederalHolidayDate (normNameL "Labor Day") y
        = getNthWeekdayOfMonth y 9 0 1 from rfl, hd],
      hy', hm', hw', by omega, by omega⟩
  · obtain ⟨d, hd⟩ := getNthWeekdayOfMonth_isSome y 1 0 3 (by decide)
      (show (7 : Nat) + (3 - 1) * 7 ≤ 31 by decide)
    obtain ⟨hy', hm', hw', h1, h2, h3⟩ := getNthWeekdayOfMonth_spec (by decide) (by decide) hd
    refine ⟨d, by rw [show getFederalHolidayDate (normNameL "MLK Day") y
        = getNthWeekdayOfMonth y 1 0 3 from rfl, hd],
      hy', hm', hw', by omega, by omega, ?_⟩
    intro src ss dur
    unfold candidateFor
    rw [show getFederalHolidayDate (normNameL "MLK Day") y
        = getNthWeekdayOfMonth y 1 0 3 from rfl, hd]
    rfl
  · obtain ⟨d, hd⟩ := getNthWeekdayOfMonth_isSome y 2 0 3 (by decide)
      (by have := monthLen_ge_28 y 2; omega)
    obtain ⟨hy', hm', hw', h1, h2, h3⟩ := getNthWeekdayOfMonth_spec (by decide) (by decide) hd
    exact ⟨d, by rw [show getFederalHolidayDate (normNameL "Presidents Day") y
        = getNthWeekdayOfMonth y 2 0 3 from rfl, hd],
      hy', hm', hw', by omega, by omega⟩
  · obtain ⟨hy', hm', hw', h1, h2⟩ := getLastWeekdayOfMonth_monday y 5 hy (by decide) (by decide)
    refine ⟨getLastWeekdayOfMonth y 5 0, rfl, hy', hm', hw', ?_, ?_⟩
    · exact h1
    · exact h2

set_option maxRecDepth 10000 in
/-- Witness for c3_federal_rules at the year 2027. -/
theorem c3_federal_rules_witness :
    (∃ d, getFederalHolidayDate (normNameL "Labor Day") 2027 = some d ∧
      d.year = 2027 ∧ d.month = 9 ∧ wkday d = 0 ∧ 1 ≤ d.day ∧ d.day ≤ 7) ∧
    (∃ d, getFederalHolidayDate (normNameL "MLK Day") 2027 = some d ∧
      d.year = 2027 ∧ d.month = 1 ∧ wkday d = 0 ∧ 15 ≤ d.day ∧ d.day ≤ 21 ∧
      ∀ (src : Holiday) (ss : Date) (dur : Int),
        candidateFor (normNameL "MLK Day") src ss dur 2027 = some (d, addInt d dur)) ∧
    (∃ d, getFederalHolidayDate (normNameL "Presidents Day") 2027 = some d ∧
      d.year = 2027 ∧ d.month = 2 ∧ wkday d = 0 ∧ 15 ≤ d.day ∧ d.day ≤ 21) ∧
    (∃ d, getFederalHolidayDate (normNameL "Memorial Day") 2027 = some d ∧
      d.year = 2027 ∧ d.month = 5 ∧ wkday d = 0 ∧ 25 ≤ d.day ∧ d.day ≤ 31) ∧
    getFederalHolidayDate (normNameL "Independence Day") 2027 = some ⟨2027, 7, 4⟩ ∧
    mlkInferred2027 ∈ inferMissingYears ⟨2026, 6, 1⟩ [mlkSrc] :=
  c3_federal_rules 2027 (by decide)

/-! Claim C4: pattern-based inference. -/

/-- get_nth_full_week_start always lands on a Monday of the requested month,
whatever the requested week index (the fallback clamps keep it in range). -/
theorem getNthFullWeekStart_spec (y m : Nat) (nth : Int) :
    ∃ dd : Nat, getNthFullWeekStart y m nth = ⟨y, m, dd⟩ ∧ 1 ≤ dd ∧ dd ≤ monthLen y m ∧
      wkday ⟨y, m, dd⟩ = 0 := by
  have hfw := wkday_day_lt_7 ⟨y, m, 1⟩
  have h28 := monthLen_ge_28 y m
  have hfwd : wkday ⟨y, m, 1⟩ = (daysBeforeYear y + daysBeforeMonth y m + 1 + 6) % 7 := rfl
  simp only [getNthFullWeekStart]
  obtain ⟨a, ha, ha1, ha2, ha3⟩ :
      ∃ a : Nat, (if wkday ⟨y, m, 1⟩ = 0 then 1 else 1 + (7 - wkday ⟨y, m, 1⟩)) = a ∧
        1 ≤ a ∧ a ≤ 7 ∧ (daysBeforeYear y + daysBeforeMonth y m + a + 6) % 7 = 0 := by
    refine ⟨_, rfl, ?_, ?_, ?_⟩
    · split <;> omega
    · split <;> omega
    · split <;> omega
  rw [ha]
  obtain ⟨c, hc, hc1, hc2, hc3⟩ :
      ∃ c : Nat, (if monthLen y m < a + 4 then a + 7 else a) = c ∧
        1 ≤ c ∧ c ≤ monthLen y m ∧ (daysBeforeYear y + daysBeforeMonth y m + c + 6) % 7 = 0 := by
    refine ⟨_, rfl, ?_, ?_, ?_⟩
    · split <;> omega
    · split <;> omega
    · split <;> omega
  rw [hc]
  obtain ⟨t, ht, k, hk⟩ :
      ∃ t : Int, (if (monthLen y m : Int) < (c : Int) + (nth - 1) * 7
          then (c : Int) + (max 0 (nth - 2)) * 7 else (c : Int) + (nth - 1) * 7) = t ∧
        ∃ k : Int, t = (c : Int) + k * 7 := by
    refine ⟨_, rfl, ?_⟩
    split
    · exact ⟨max 0 (nth - 2), rfl⟩
    · exact ⟨nth - 1, rfl⟩
  rw [ht]
  split
  · refine ⟨c, rfl, hc1, hc2, ?_⟩
    show (toRD ⟨y, m, c⟩ + 6) % 7 = 0
    rw [toRD_mk]
    omega
  · rename_i hguard
    refine ⟨t.toNat, rfl, by omega, by omega, ?_⟩
    show (toRD ⟨y, m, t.toNat⟩ + 6) % 7 = 0
    rw [toRD_mk]
    omega

def fallSrc : Holiday :=
  ⟨"Fall Break", .valid ⟨2025, 10, 6⟩, .valid ⟨2025, 10, 10⟩, false, "", false, none⟩

def fallInferredClamped : Holiday :=
  ⟨"Fall Break", .valid ⟨2027, 10, 4⟩, .valid ⟨2027, 10, 6⟩, false,
   "Inferred from 2025 calendar", true, some 2025⟩

set_option maxRecDepth 10000 in
/-- C4 counterexample: with today 2025-10-05, a source Fall Break of
2025-10-06..2025-10-10 (duration 4) yields an emitted 2027 instance
2027-10-04..2027-10-06 whose duration 2 differs from the source duration:
the window clamp shortens an emitted candidate, so the emitted instance does
not always reproduce the source duration. -/
theorem c4_counterexample :
    fallInferredClamped ∈ inferMissingYears ⟨2025, 10, 5⟩ [fallSrc] ∧
    diffD ⟨2027, 10, 6⟩ ⟨2027, 10, 4⟩ ≠ diffD ⟨2025, 10, 10⟩ ⟨2025, 10, 6⟩ := by
  decide

/-- C4 amended: before the window truncation, infer_break_by_pattern always
emits a candidate whose start sits at the source weekday offset from the
Monday of the slot week (get_nth_full_week_start) in the source start month
of the target year, and whose duration equals the source duration exactly;
the truncation step may then clamp the end (see the counterexample). -/
theorem c4_amended (src : Holiday) (ty : Nat) (s e : Date)
    (hs : parseDF src.startD = some s) (he : parseDF src.endD = some e)
    (hval : s.Valid) (hty : 1 ≤ ty) (hdur : toRD s ≤ toRD e) :
    ∃ wm istart, getNthFullWeekStart ty s.month (getNthFullWeek s) = wm ∧
      wkday wm = 0 ∧ wm.year = ty ∧ wm.month = s.month ∧
      inferBreakByPattern ty src = some (istart, addInt istart (diffD e s)) ∧
      istart = addD wm (wkday s) ∧ wkday istart = wkday s ∧
      diffD (addInt istart (diffD e s)) istart = diffD e s := by
  obtain ⟨dd, hdd, hd1, hd2, hd3⟩ := getNthFullWeekStart_spec ty s.month (getNthFullWeek s)
  have hwmval : Date.Valid ⟨ty, s.month, dd⟩ := ⟨hty, hval.2.1, hval.2.2.1, hd1, hd2⟩
  have histval := (toRD_addD hwmval (wkday s)).2
  refine ⟨⟨ty, s.month, dd⟩, addD ⟨ty, s.month, dd⟩ (wkday s), hdd, hd3, rfl, rfl, ?_, rfl, ?_, ?_⟩
  · unfold inferBreakByPattern
    rw [hs, he]
    dsimp only
    rw [hdd]
  · rw [wkday_addD hwmval, hd3]
    have := wkday_day_lt_7 s
    omega
  · have h0 : (0 : Int) ≤ diffD e s := by unfold diffD; omega
    unfold addInt
    rw [if_pos h0]
    unfold diffD
    rw [(toRD_addD histval _).1]
    omega

set_option maxRecDepth 10000 in
/-- Witness for c4_amended: the 2026 Fall Break candidate reproduces the
source weekday and duration from the 2025 source. -/
theorem c4_amended_witness :
    ∃ wm istart,
      getNthFullWeekStart 2026 (Date.month ⟨2025, 10, 6⟩) (getNthFullWeek ⟨2025, 10, 6⟩) = wm ∧
      wkday wm = 0 ∧ wm.year = 2026 ∧ wm.month = Date.month ⟨2025, 10, 6⟩ ∧
      inferBreakByPattern 2026 fallSrc
        = some (istart, addInt istart (diffD ⟨2025, 10, 10⟩ ⟨2025, 10, 6⟩)) ∧
      istart = addD wm (wkday ⟨2025, 10, 6⟩) ∧ wkday istart = wkday ⟨2025, 10, 6⟩ ∧
      diffD (addInt istart (diffD ⟨2025, 10, 10⟩ ⟨2025, 10, 6⟩)) istart
        = diffD ⟨2025, 10, 10⟩ ⟨2025, 10, 6⟩ :=
  c4_amended fallSrc 2026 ⟨2025, 10, 6⟩ ⟨2025, 10, 10⟩ rfl rfl (by decide) (by decide) (by decide)

/-! Claim C6: idempotence of the inference engine. -/

def cbSrc : Holiday :=
  ⟨"Christmas Break", .valid ⟨2022, 12, 31⟩, .valid ⟨2023, 1, 6⟩, false, "", false, none⟩

set_option maxRecDepth 10000 in
/-- C6 counterexample: re-running the engine on its own output with the same
effective date adds a holiday, and the resulting list carries a duplicate
(normalized name, start year) pair.  The 2024 Christmas candidate is
weekday-adjusted into January 2025, so it is registered under target year
2024 but starts in 2025; the second run sees 2024 as still missing and emits
again, duplicating the (christmas break, 2025) start-year pair. -/
theorem c6_counterexample :
    (inferMissingYears ⟨2023, 6, 1⟩ (inferMissingYears ⟨2023, 6, 1⟩ [cbSrc])).length
      = (inferMissingYears ⟨2023, 6, 1⟩ [cbSrc]).length + 1 ∧
    ¬ ((inferMissingYears ⟨2023, 6, 1⟩ (inferMissingYears ⟨2023, 6, 1⟩ [cbSrc])).filterMap
        (fun h => (parseDF h.startD).map fun s0 => (normNameL h.name, s0.year))).Nodup := by
  decide

/-- One inner-loop step either leaves the key list unchanged or appends
exactly the (name, target year) key it emitted. -/
theorem emitYear_keys (today : Date) (nm : List Char) (src : Holiday) (ss : Date) (sy : Nat)
    (dur : Int) (st : List (List Char × Nat) × List Holiday) (ty : Nat) :
    (emitYear today nm src ss sy dur st ty).1 = st.1 ∨
    (emitYear today nm src ss sy dur st ty).1 = st.1 ++ [(nm, ty)] := by
  unfold emitYear
  cases candidateFor nm src ss dur ty with
  | none => exact Or.inl rfl
  | some p =>
    cases p with
    | mk istart iend =>
      dsimp only
      cases truncateCandidate today istart iend with
      | none => exact Or.inl rfl
      | some q =>
        cases q with
        | mk fs fe => exact Or.inr rfl

/-- Folding the inner loop over pairwise distinct, unregistered target years
appends pairwise distinct keys for this name, none already registered. -/
theorem emit_fold_keys (today : Date) (nm : List Char) (src : Holiday) (ss : Date) (sy : Nat)
    (dur : Int) : ∀ (tys : List Nat) (st : List (List Char × Nat) × List Holiday),
    tys.Nodup → (∀ y ∈ tys, (nm, y) ∉ st.1) →
    ∃ extra, (tys.foldl (emitYear today nm src ss sy dur) st).1 = st.1 ++ extra ∧
      extra.Nodup ∧ (∀ k ∈ extra, k.1 = nm ∧ k.2 ∈ tys) ∧ ∀ k ∈ extra, k ∉ st.1 := by
  intro tys
  induction tys with
  | nil =>
    intro st _ _
    exact ⟨[], by simp, List.nodup_nil,
      fun k hk => absurd hk (List.not_mem_nil k), fun k hk => absurd hk (List.not_mem_nil k)⟩
  | cons y tys ih =>
    intro st hnd hmem
    rw [List.nodup_cons] at hnd
    rcases emitYear_keys today nm src ss sy dur st y with hk | hk
    · obtain ⟨extra, h1, h2, h3, h4⟩ := ih (emitYear today nm src ss sy dur st y) hnd.2
        (by
          intro y' hy'
          rw [hk]
          exact hmem y' (List.mem_cons_of_mem _ hy'))
      refine ⟨extra, ?_, h2, ?_, ?_⟩
      · rw [List.foldl_cons, h1, hk]
      · exact fun k hkk => ⟨(h3 k hkk).1, List.mem_cons_of_mem _ (h3 k hkk).2⟩
      · intro k hkk
        have h5 := h4 k hkk
        rw [hk] at h5
        exact h5
    · obtain ⟨extra, h1, h2, h3, h4⟩ := ih (emitYear today nm src ss sy dur st y) hnd.2
        (by
          intro y' hy'
          rw [hk]
          intro hin
          rcases List.mem_append.mp hin with hin1 | hin2
          · exact hmem y' (List.mem_cons_of_mem _ hy') hin1
          · rw [List.mem_singleton] at hin2
            have hy'y : y' = y := by injection hin2 with hfst hsnd
            exact hnd.1 (hy'y ▸ hy'))
      refine ⟨(nm, y) :: extra, ?_, ?_, ?_, ?_⟩
      · rw [List.foldl_cons, h1, hk, List.append_assoc, List.singleton_append]
      · rw [List.nodup_cons]
        exact ⟨fun hmemk => hnd.1 ((h3 _ hmemk).2), h2⟩
      · intro k hkk
        rcases List.mem_cons.mp hkk with rfl | hk2
        · exact ⟨rfl, List.mem_cons_self _ _⟩
        · exact ⟨(h3 k hk2).1, List.mem_cons_of_mem _ (h3 k hk2).2⟩
      · intro k hkk
        rcases List.mem_cons.mp hkk with rfl | hk2
        · exact hmem y (List.mem_cons_self _ _)
        · have h5 := h4 k hk2
          rw [hk] at h5
          intro hin
          exact h5 (List.mem_append_left _ hin)

/-- One name of the outer loop only appends keys that were not registered
before it ran, with no duplicates among them. -/
theorem processName_keys (today rangeEnd : Date)
    (st : List (List Char × Nat) × List Holiday) (p : List Char × Holiday) :
    ∃ extra, (processName today rangeEnd st p).1 = st.1 ++ extra ∧ extra.Nodup ∧
      ∀ k ∈ extra, k ∉ st.1 := by
  unfold processName
  cases hp1 : parseDF p.2.startD with
  | none =>
    exact ⟨[], by simp, List.nodup_nil, fun k hk => absurd hk (List.not_mem_nil k)⟩
  | some ss =>
    cases hp2 : parseDF p.2.endD with
    | none =>
      exact ⟨[], by simp, List.nodup_nil, fun k hk => absurd hk (List.not_mem_nil k)⟩
    | some se =>
      dsimp only
      split
      · exact ⟨[], by simp, List.nodup_nil, fun k hk => absurd hk (List.not_mem_nil k)⟩
      · have htys : (targetYears today rangeEnd p.1 ss.year st.1).Nodup :=
          List.Nodup.filter _ (List.nodup_range' _ _)
        have hmem : ∀ y ∈ targetYears today rangeEnd p.1 ss.year st.1, (p.1, y) ∉ st.1 := by
          intro y hy
          unfold targetYears at hy
          exact (of_decide_eq_true (List.mem_filter.mp hy).2).2
        obtain ⟨extra, h1, h2, h3, h4⟩ :=
          emit_fold_keys today p.1 p.2 ss ss.year (diffD se ss) _ st htys hmem
        exact ⟨extra, h1, h2, h4⟩

/-- The whole outer loop never registers a key twice. -/
theorem processName_fold_keys (today rangeEnd : Date) :
    ∀ (ps : List (List Char × Holiday)) (st : List (List Char × Nat) × List Holiday),
    ∃ extra, (ps.foldl (processName today rangeEnd) st).1 = st.1 ++ extra ∧ extra.Nodup ∧
      ∀ k ∈ extra, k ∉ st.1 := by
  intro ps
  induction ps with
  | nil =>
    intro st
    exact ⟨[], by simp, List.nodup_nil, fun k hk => absurd hk (List.not_mem_nil k)⟩
  | cons p ps ih =>
    intro st
    obtain ⟨e1, he1, he1n, he1m⟩ := processName_keys today rangeEnd st p
    obtain ⟨e2, he2, he2n, he2m⟩ := ih (processName today rangeEnd st p)
    refine ⟨e1 ++ e2, ?_, ?_, ?_⟩
    · rw [List.foldl_cons, he2, he1, List.append_assoc]
    · rw [List.nodup_append]
      refine ⟨he1n, he2n, ?_⟩
      intro a ha hab
      exact he2m a hab (by rw [he1]; exact List.mem_append_right _ ha)
    · intro k hk hmem
      rcases List.mem_append.mp hk with h | h
      · exact he1m k h hmem
      · exact he2m k h (by rw [he1]; exact List.mem_append_left _ hmem)

/-- C6 amended: within a single run the engine never creates a duplicate
registered (name, year) key: the final key list is the input key list plus
pairwise distinct new keys, none of which was an input key.  Idempotence
across runs fails, however, because a weekday-adjusted Christmas candidate
can be registered under a target year that differs from its start year (see
the counterexample). -/
theorem c6_amended (today : Date) (hs : List Holiday) :
    ∃ added, (inferCore today hs).1 = inputKeys hs ++ added ∧ added.Nodup ∧
      ∀ k ∈ added, k ∉ inputKeys hs := by
  obtain ⟨extra, h1, h2, h3⟩ := processName_fold_keys today (addD today 731) (uniqueByName hs)
    (inputKeys hs, hs.map fun h => { h with inferred := false })
  exact ⟨extra, h1, h2, h3⟩
